import Mathlib

/-!
Shallow embedding of `src/src/.internal/charts/map/MapUtils.ts`.

JavaScript numbers are modelled as exact rationals (`ℚ`).  A JavaScript
array element that may be `undefined` (an out-of-range index, or an absent
ring slot of a sparse polygon array) is modelled as `Option`; a present
value is `some`.  Division by zero, which in JavaScript produces `NaN` or
`±Infinity` inside `getBackground`'s step computations, is modelled by the
Lean convention `x / 0 = 0`; the loop-count helpers below record, case by
case, why the resulting iteration sequences agree with the JavaScript ones
on every reachable input.
-/

namespace MapUtils

/-- Coordinate entry of a point array: `none` models an `undefined` entry. -/
abbrev Coord := Option ℚ

/-- A point of the planar representation: the JS `number[]`, normally `[longitude, latitude]`. -/
abbrev Point := List Coord

/-- A ring: the JS `number[][]`. -/
abbrev Ring := List Point

/-- A polygon: the JS `number[][][]`, ring slot 0 = surface, slot 1 = hole;
`none` at a slot models an `undefined` (absent) ring in the JS array. -/
abbrev Polygon := List (Option Ring)

/-- Geo point record, from `IGeoPoint`; the fields are `Option` because the
source does no bounds checking and `point[0]` / `point[1]` may be
`undefined` on short arrays. -/
structure IGeoPoint where
  longitude : Option ℚ
  latitude : Option ℚ
deriving DecidableEq, Repr

/-- A geo polygon: slot 0 = surface, slot 1 = hole, `none` = absent slot. -/
abbrev GeoPolygon := List (Option (List IGeoPoint))

/-- Source `pointToGeo`: `{longitude: point[0], latitude: point[1]}`.
`Option.join` collapses "index out of range" and "entry is undefined"
to the single JS value `undefined`. -/
def pointToGeo (point : Point) : IGeoPoint :=
  { longitude := (point.get? 0).join, latitude := (point.get? 1).join }

/-- Source `multiPointToGeo`: element-wise `pointToGeo` (a loop of pushes). -/
def multiPointToGeo (points : List Point) : List IGeoPoint :=
  points.map pointToGeo

/-- Source `multiGeoToPoint`: pushes `[longitude, latitude]` for each geo point. -/
def multiGeoToPoint (geoPoints : List IGeoPoint) : List Point :=
  geoPoints.map fun g => [g.longitude, g.latitude]

/-- Source `multiLineToGeo`: pushes `multiPointToGeo` of each line. -/
def multiLineToGeo (multiLine : List (List Point)) : List (List IGeoPoint) :=
  multiLine.map multiPointToGeo

/-- Source `multiGeoLineToMultiLine`: written with its own explicit nested
loops (`$array.each` + push of `[longitude, latitude]`), not by reuse of
`multiGeoToPoint`; embedded with the same inline structure. -/
def multiGeoLineToMultiLine (multiGeoLine : List (List IGeoPoint)) : List (List Point) :=
  multiGeoLine.map fun segment => segment.map fun geoPoint => [geoPoint.longitude, geoPoint.latitude]

/-- Source `multiPolygonToGeo`: per polygon, read slot 0 (`surface`) and
slot 1 (`hole`); `if (surface)` is JS truthiness, so an absent
(`undefined`) slot is skipped while a present ring — even an empty array —
is pushed.  Pushes append, so the output slots are dense. -/
def multiPolygonToGeo (multiPolygon : List Polygon) : List GeoPolygon :=
  multiPolygon.map fun poly =>
    let surface : Option Ring := (poly.get? 0).join
    let hole : Option Ring := (poly.get? 1).join
    (match surface with
      | some s => [some (multiPointToGeo s)]
      | none => []) ++
    (match hole with
      | some h => [some (multiPointToGeo h)]
      | none => [])

/-- Source `multiGeoPolygonToMultipolygon`: the mirror image of
`multiPolygonToGeo`, slot 0 = surface, slot 1 = hole, truthiness test,
pushes append. -/
def multiGeoPolygonToMultipolygon (multiGeoPolygon : List GeoPolygon) : List Polygon :=
  multiGeoPolygon.map fun poly =>
    let surface : Option (List IGeoPoint) := (poly.get? 0).join
    let hole : Option (List IGeoPoint) := (poly.get? 1).join
    (match surface with
      | some s => [some (multiGeoToPoint s)]
      | none => []) ++
    (match hole with
      | some h => [some (multiGeoToPoint h)]
      | none => [])

/-- Iteration count of the JS loop `for (x = a; x <= b; x = x + step)`.
For `0 < step` the loop visits `a + k * step` for `k = 0, …, ⌊(b-a)/step⌋`
(exact rational arithmetic makes repeated addition equal to `a + k * step`).
A non-positive step reaches this code only as the image of a JS `NaN` step
(a `0/0` zero-span division, modelled as `0` in `ℚ`): the JS loop then runs
its body once when the condition holds initially and exits, since
`a + NaN = NaN` fails every comparison. -/
def forUpCount (a b step : ℚ) : ℕ :=
  if 0 < step then (⌊(b - a) / step⌋ + 1).toNat else if a ≤ b then 1 else 0

/-- Values visited by the JS loop `for (x = a; x <= b; x = x + step)`. -/
def forUp (a b step : ℚ) : List ℚ :=
  (List.range (forUpCount a b step)).map fun k : ℕ => a + (k : ℚ) * step

/-- Iteration count of the JS loop `for (x = a; x >= b; x = x - step)`;
same conventions as `forUpCount`. -/
def forDownCount (a b step : ℚ) : ℕ :=
  if 0 < step then (⌊(a - b) / step⌋ + 1).toNat else if b ≤ a then 1 else 0

/-- Values visited by the JS loop `for (x = a; x >= b; x = x - step)`. -/
def forDown (a b step : ℚ) : List ℚ :=
  (List.range (forDownCount a b step)).map fun k : ℕ => a - (k : ℚ) * step

/-- One slice ring of `getBackground`, traced exactly as in the source body:
top edge west→east at `latitude = north` in 5° steps, right edge
north→south at `longitude = ln + stepLong` in `stepLat` steps, bottom edge
east→west at `latitude = south` in 5° steps, left edge south→north at
`longitude = ln` in `stepLat` steps. -/
def sliceRing (north south stepLat ln stepLong : ℚ) : List (List ℚ) :=
  ((forUp ln (ln + stepLong) 5).map fun ll => [ll, north]) ++
  ((forDown north south stepLat).map fun lt => [ln + stepLong, lt]) ++
  ((forDown (ln + stepLong) ln 5).map fun ll => [ll, south]) ++
  ((forUp south north stepLat).map fun lt => [ln, lt])

/-- Outer loop of `getBackground`: `for (ln = west; ln < east; ln += stepLong)`,
with the in-loop clamp `if (ln + stepLong > east) stepLong = east - ln`
(the clamp persists into the increment, so `stepLong` is loop state).
`fuel` bounds the number of iterations; `getBackground` passes
`⌈(east - west)/90⌉.toNat + 1` fuel, which exceeds the loop's actual
iteration count on every input (`bgSlices_closed` below exhibits the exact
count when the loop runs at all; when `¬ ln < east` the loop exits at once
for any fuel). -/
def bgSlices (north south stepLat east : ℚ) : ℕ → ℚ → ℚ → List (List (List (List ℚ)))
  | 0, _, _ => []
  | fuel + 1, ln, stepLong =>
    if ln < east then
      let stepLong := if east < ln + stepLong then east - ln else stepLong
      [sliceRing north south stepLat ln stepLong] ::
        bgSlices north south stepLat east fuel (ln + stepLong) stepLong
    else []

/-- Source: `if (west == -180) { west = -179.9999; }`. -/
def nudgeWest (west : ℚ) : ℚ := if west = -180 then -179.9999 else west

/-- Source: `if (south == -90) { south = -89.9999; }`. -/
def nudgeSouth (south : ℚ) : ℚ := if south = -90 then -89.9999 else south

/-- Source: `if (north == 90) { north = 89.9999; }`. -/
def nudgeNorth (north : ℚ) : ℚ := if north = 90 then 89.9999 else north

/-- Source: `if (east == 180) { east = 179.9999; }`. -/
def nudgeEast (east : ℚ) : ℚ := if east = 180 then 179.9999 else east

/-- Source: `stepLong = Math.min(90, (east - west) / Math.ceil((east - west) / 90))`. -/
def bgStepLong (east west : ℚ) : ℚ :=
  min 90 ((east - west) / (⌈(east - west) / 90⌉ : ℤ))

/-- Source: `stepLat = (north - south) / Math.ceil((north - south) / 90)`. -/
def bgStepLat (north south : ℚ) : ℚ :=
  (north - south) / (⌈(north - south) / 90⌉ : ℤ)

/-- Source `getBackground(north, east, south, west)`: nudge the four exact
extremes inward, compute the two steps, then run the slice loop. -/
def getBackground (north east south west : ℚ) : List (List (List (List ℚ))) :=
  let west := nudgeWest west
  let south := nudgeSouth south
  let north := nudgeNorth north
  let east := nudgeEast east
  bgSlices north south (bgStepLat north south) east
    ((⌈(east - west) / 90⌉).toNat + 1) west (bgStepLong east west)

theorem forUpCount_pos {a b step : ℚ} (h : a ≤ b) : 0 < forUpCount a b step := by
  unfold forUpCount
  split
  · next hstep =>
    have h0 : (0:ℚ) ≤ (b - a) / step := div_nonneg (sub_nonneg.mpr h) (le_of_lt hstep)
    have h1 : (0:ℤ) ≤ ⌊(b - a) / step⌋ := Int.floor_nonneg.mpr h0
    have h2 : (0:ℤ) < ⌊(b - a) / step⌋ + 1 := by omega
    omega
  · simp [h]

theorem forUp_head {a b step : ℚ} (h : a ≤ b) : (forUp a b step).head? = some a := by
  obtain ⟨c, hc⟩ := Nat.exists_eq_succ_of_ne_zero (Nat.pos_iff_ne_zero.mp (@forUpCount_pos a b step h))
  unfold forUp
  rw [hc, List.head?_map, List.range_succ_eq_map]
  simp

theorem forUp_mem {a b step x : ℚ} (h : a ≤ b) (hx : x ∈ forUp a b step) :
    a ≤ x ∧ x ≤ b := by
  unfold forUp at hx
  obtain ⟨k, hk, rfl⟩ := List.mem_map.mp hx
  rw [List.mem_range] at hk
  unfold forUpCount at hk
  split at hk
  · next hstep =>
    have hk' : (k : ℤ) < ⌊(b - a) / step⌋ + 1 := by omega
    have hk2 : (k : ℤ) ≤ ⌊(b - a) / step⌋ := by omega
    have hk3 : ((k : ℤ) : ℚ) ≤ (b - a) / step := Int.le_floor.mp hk2
    have hk4 : (k : ℚ) * step ≤ b - a := by
      rw [← le_div_iff₀ hstep]; exact_mod_cast hk3
    constructor
    · have : (0:ℚ) ≤ (k : ℚ) * step := mul_nonneg (Nat.cast_nonneg k) (le_of_lt hstep)
      linarith
    · linarith
  · have hk0 : k = 0 := by omega
    subst hk0
    simp [h]

theorem forDownCount_pos {a b step : ℚ} (h : b ≤ a) : 0 < forDownCount a b step := by
  unfold forDownCount
  split
  · next hstep =>
    have h0 : (0:ℚ) ≤ (a - b) / step := div_nonneg (sub_nonneg.mpr h) (le_of_lt hstep)
    have h1 : (0:ℤ) ≤ ⌊(a - b) / step⌋ := Int.floor_nonneg.mpr h0
    omega
  · simp [h]

theorem forDown_head {a b step : ℚ} (h : b ≤ a) : (forDown a b step).head? = some a := by
  obtain ⟨c, hc⟩ := Nat.exists_eq_succ_of_ne_zero (Nat.pos_iff_ne_zero.mp (@forDownCount_pos a b step h))
  unfold forDown
  rw [hc, List.head?_map, List.range_succ_eq_map]
  simp

theorem forDown_mem {a b step x : ℚ} (h : b ≤ a) (hx : x ∈ forDown a b step) :
    b ≤ x ∧ x ≤ a := by
  unfold forDown at hx
  obtain ⟨k, hk, rfl⟩ := List.mem_map.mp hx
  rw [List.mem_range] at hk
  unfold forDownCount at hk
  split at hk
  · next hstep =>
    have hk2 : (k : ℤ) ≤ ⌊(a - b) / step⌋ := by omega
    have hk3 : ((k : ℤ) : ℚ) ≤ (a - b) / step := Int.le_floor.mp hk2
    have hk4 : (k : ℚ) * step ≤ a - b := by
      rw [← le_div_iff₀ hstep]; exact_mod_cast hk3
    constructor
    · linarith
    · have : (0:ℚ) ≤ (k : ℚ) * step := mul_nonneg (Nat.cast_nonneg k) (le_of_lt hstep)
      linarith
  · have hk0 : k = 0 := by omega
    subst hk0
    simp [h]

theorem forUp_getLast_exact (a step : ℚ) (m : ℕ) (hstep : 0 < step) :
    (forUp a (a + m * step) step).getLast? = some (a + m * step) := by
  have hcount : forUpCount a (a + m * step) step = m + 1 := by
    unfold forUpCount
    rw [if_pos hstep]
    have : (a + m * step - a) / step = (m : ℚ) := by
      field_simp
    rw [this, Int.floor_natCast]
    omega
  unfold forUp
  rw [hcount, List.range_succ, List.map_append, List.map_singleton, List.getLast?_concat]

theorem ceil_span_pos {w e : ℚ} (h : w < e) : 0 < ⌈(e - w) / 90⌉ :=
  Int.ceil_pos.mpr (div_pos (sub_pos.mpr h) (by norm_num))

theorem bgStepLong_eq {w e : ℚ} (h : w < e) :
    bgStepLong e w = (e - w) / ((⌈(e - w) / 90⌉ : ℤ) : ℚ) := by
  unfold bgStepLong
  have hn : (0:ℚ) < ((⌈(e - w) / 90⌉ : ℤ) : ℚ) := by exact_mod_cast ceil_span_pos h
  refine min_eq_right ?_
  rw [div_le_iff₀ hn]
  have h1 : (e - w) / 90 ≤ ((⌈(e - w) / 90⌉ : ℤ) : ℚ) := Int.le_ceil _
  nlinarith

theorem bgStepLong_pos {w e : ℚ} (h : w < e) : 0 < bgStepLong e w := by
  rw [bgStepLong_eq h]
  have hn : (0:ℚ) < ((⌈(e - w) / 90⌉ : ℤ) : ℚ) := by exact_mod_cast ceil_span_pos h
  exact div_pos (sub_pos.mpr h) hn

theorem bgStepLong_exact {w e : ℚ} (h : w < e) :
    w + ((⌈(e - w) / 90⌉.toNat : ℕ) : ℚ) * bgStepLong e w = e := by
  rw [bgStepLong_eq h]
  have hc := ceil_span_pos h
  have hcast : ((⌈(e - w) / 90⌉.toNat : ℕ) : ℚ) = ((⌈(e - w) / 90⌉ : ℤ) : ℚ) := by
    exact_mod_cast congrArg (Int.cast : ℤ → ℚ) (Int.toNat_of_nonneg (le_of_lt hc))
  rw [hcast]
  have hn : ((⌈(e - w) / 90⌉ : ℤ) : ℚ) ≠ 0 := by
    have : (0:ℚ) < ((⌈(e - w) / 90⌉ : ℤ) : ℚ) := by exact_mod_cast hc
    exact ne_of_gt this
  field_simp

theorem bgStepLat_pos {s n : ℚ} (h : s < n) : 0 < bgStepLat n s := by
  unfold bgStepLat
  have hc : 0 < ⌈(n - s) / 90⌉ := Int.ceil_pos.mpr (div_pos (sub_pos.mpr h) (by norm_num))
  have hn : (0:ℚ) < ((⌈(n - s) / 90⌉ : ℤ) : ℚ) := by exact_mod_cast hc
  exact div_pos (sub_pos.mpr h) hn

theorem bgStepLat_exact {s n : ℚ} (h : s < n) :
    s + ((⌈(n - s) / 90⌉.toNat : ℕ) : ℚ) * bgStepLat n s = n := by
  unfold bgStepLat
  have hc : 0 < ⌈(n - s) / 90⌉ := Int.ceil_pos.mpr (div_pos (sub_pos.mpr h) (by norm_num))
  have hcast : ((⌈(n - s) / 90⌉.toNat : ℕ) : ℚ) = ((⌈(n - s) / 90⌉ : ℤ) : ℚ) := by
    exact_mod_cast congrArg (Int.cast : ℤ → ℚ) (Int.toNat_of_nonneg (le_of_lt hc))
  rw [hcast]
  have hn : ((⌈(n - s) / 90⌉ : ℤ) : ℚ) ≠ 0 := by
    have : (0:ℚ) < ((⌈(n - s) / 90⌉ : ℤ) : ℚ) := by exact_mod_cast hc
    exact ne_of_gt this
  field_simp

theorem bgSlices_closed (north south stepLat east s : ℚ) (hs : 0 < s) :
    ∀ (m : ℕ) (fuel : ℕ) (ln : ℚ), ln + (m : ℚ) * s = east → m ≤ fuel →
      bgSlices north south stepLat east fuel ln s =
        (List.range m).map fun k : ℕ =>
          [sliceRing north south stepLat (ln + (k : ℚ) * s) s] := by
  intro m
  induction m with
  | zero =>
    intro fuel ln hln _
    have hln' : ln = east := by push_cast at hln; linarith
    cases fuel with
    | zero => simp [bgSlices]
    | succ fuel => simp [bgSlices, hln']
  | succ m ih =>
    intro fuel ln hln hfuel
    have hms : (0:ℚ) ≤ (m : ℚ) * s := mul_nonneg (Nat.cast_nonneg m) (le_of_lt hs)
    have hlt : ln < east := by push_cast at hln; nlinarith
    have hnoclamp : ¬ east < ln + s := by push_cast at hln; nlinarith
    obtain ⟨f, rfl⟩ := Nat.exists_eq_add_of_le hfuel
    have hrec : (ln + s) + (m : ℚ) * s = east := by push_cast at hln ⊢; linarith
    have ihh := ih (m + f) (ln + s) hrec (by omega)
    show bgSlices north south stepLat east (m + 1 + f) ln s = _
    have hfs : m + 1 + f = (m + f) + 1 := by omega
    rw [hfs]
    unfold bgSlices
    rw [if_pos hlt]
    simp only [if_neg hnoclamp]
    rw [ihh, List.range_succ_eq_map, List.map_cons, List.map_map]
    congr 1
    · congr 2
      push_cast
      ring
    · refine List.map_congr_left ?_
      intro k _
      simp only [Function.comp_apply]
      congr 2
      push_cast
      ring

theorem getBackground_closed {north east south west : ℚ}
    (h : nudgeWest west < nudgeEast east) :
    getBackground north east south west =
      (List.range (⌈(nudgeEast east - nudgeWest west) / 90⌉.toNat)).map fun k : ℕ =>
        [sliceRing (nudgeNorth north) (nudgeSouth south)
          (bgStepLat (nudgeNorth north) (nudgeSouth south))
          (nudgeWest west + (k : ℚ) * bgStepLong (nudgeEast east) (nudgeWest west))
          (bgStepLong (nudgeEast east) (nudgeWest west))] := by
  unfold getBackground
  exact bgSlices_closed _ _ _ _ _ (bgStepLong_pos h) _ _ _ (bgStepLong_exact h) (by omega)

theorem forUp_ne_nil {a b step : ℚ} (h : a ≤ b) : forUp a b step ≠ [] := by
  have := @forUpCount_pos a b step h
  unfold forUp
  intro hnil
  rw [List.map_eq_nil_iff, List.range_eq_nil] at hnil
  omega

theorem forDown_ne_nil {a b step : ℚ} (h : b ≤ a) : forDown a b step ≠ [] := by
  have := @forDownCount_pos a b step h
  unfold forDown
  intro hnil
  rw [List.map_eq_nil_iff, List.range_eq_nil] at hnil
  omega

theorem sliceRing_head {n s lat ln w : ℚ} (hw : 0 ≤ w) :
    (sliceRing n s lat ln w).head? = some [ln, n] := by
  have hle : ln ≤ ln + w := by linarith
  unfold sliceRing
  have ha : (List.map (fun ll => [ll, n]) (forUp ln (ln + w) 5)) ≠ [] := by
    simp only [ne_eq, List.map_eq_nil_iff]
    exact forUp_ne_nil hle
  rw [List.head?_append_of_ne_nil _ (by simp only [ne_eq, List.append_eq_nil]; tauto),
    List.head?_append_of_ne_nil _ (by simp only [ne_eq, List.append_eq_nil]; tauto),
    List.head?_append_of_ne_nil _ ha,
    List.head?_map, forUp_head hle, Option.map_some']

theorem sliceRing_getLast {n s ln w : ℚ} (hsn : s < n) :
    (sliceRing n s (bgStepLat n s) ln w).getLast? = some [ln, n] := by
  have hsn' : s ≤ n := le_of_lt hsn
  have hlast : (forUp s n (bgStepLat n s)).getLast? = some n := by
    have hx := bgStepLat_exact hsn
    have := forUp_getLast_exact s (bgStepLat n s) (⌈(n - s) / 90⌉.toNat) (bgStepLat_pos hsn)
    rw [hx] at this
    exact this
  have hnil : ((forUp s n (bgStepLat n s)).map fun lt => [ln, lt]) ≠ [] := by
    simp only [ne_eq, List.map_eq_nil_iff]
    exact forUp_ne_nil hsn'
  unfold sliceRing
  rw [List.getLast?_append_of_ne_nil _ hnil, List.getLast?_map, hlast, Option.map_some']

theorem sliceRing_mem {n s lat ln w : ℚ} (hsn : s ≤ n) (hw : 0 ≤ w) :
    ∀ p ∈ sliceRing n s lat ln w,
      ∃ lo la, p = [lo, la] ∧ ln ≤ lo ∧ lo ≤ ln + w ∧ s ≤ la ∧ la ≤ n := by
  have hle : ln ≤ ln + w := by linarith
  intro p hp
  unfold sliceRing at hp
  rw [List.mem_append, List.mem_append, List.mem_append] at hp
  rcases hp with ((hp | hp) | hp) | hp
  · obtain ⟨x, hx, rfl⟩ := List.mem_map.mp hp
    obtain ⟨h1, h2⟩ := forUp_mem hle hx
    exact ⟨x, n, rfl, h1, h2, hsn, le_refl n⟩
  · obtain ⟨lt, hlt, rfl⟩ := List.mem_map.mp hp
    obtain ⟨h1, h2⟩ := forDown_mem hsn hlt
    exact ⟨ln + w, lt, rfl, hle, le_refl _, h1, h2⟩
  · obtain ⟨x, hx, rfl⟩ := List.mem_map.mp hp
    obtain ⟨h1, h2⟩ := forDown_mem hle hx
    exact ⟨x, s, rfl, h1, h2, le_refl s, hsn⟩
  · obtain ⟨lt, hlt, rfl⟩ := List.mem_map.mp hp
    obtain ⟨h1, h2⟩ := forUp_mem hsn hlt
    exact ⟨ln, lt, rfl, le_refl ln, hle, h1, h2⟩

theorem bgSlices_poly_shape (north south stepLat east : ℚ) :
    ∀ (fuel : ℕ) (ln stepLong : ℚ), ∀ poly ∈ bgSlices north south stepLat east fuel ln stepLong,
      ∃ r, poly = [r] := by
  intro fuel
  induction fuel with
  | zero => intro ln stepLong poly hpoly; simp [bgSlices] at hpoly
  | succ fuel ih =>
    intro ln stepLong poly hpoly
    unfold bgSlices at hpoly
    split at hpoly
    · simp only [List.mem_cons] at hpoly
      rcases hpoly with rfl | hpoly
      · exact ⟨_, rfl⟩
      · exact ih _ _ poly hpoly
    · simp at hpoly

theorem pointToGeo_round {p : Point} (h : p.length = 2) :
    [(pointToGeo p).longitude, (pointToGeo p).latitude] = p := by
  match p, h with
  | [a, b], _ => simp [pointToGeo]

theorem multiPointToGeo_round {P : List Point} (h : ∀ p ∈ P, p.length = 2) :
    (multiPointToGeo P).map (fun g => [g.longitude, g.latitude]) = P := by
  unfold multiPointToGeo
  rw [List.map_map]
  have hcongr : ∀ p ∈ P, ((fun g : IGeoPoint => [g.longitude, g.latitude]) ∘ pointToGeo) p = id p :=
    fun p hp => pointToGeo_round (h p hp)
  rw [List.map_congr_left hcongr, List.map_id]

theorem geoPointSeq_round {P : List Point} (h : ∀ p ∈ P, p.length = 2) :
    multiGeoToPoint (multiPointToGeo P) = P := multiPointToGeo_round h

theorem multiPolygon_round (M : List Polygon)
    (h : ∀ poly ∈ M, poly.length ≤ 2 ∧
      ∀ slot ∈ poly, ∃ r, slot = some r ∧ ∀ p ∈ r, p.length = 2) :
    multiGeoPolygonToMultipolygon (multiPolygonToGeo M) = M := by
  unfold multiGeoPolygonToMultipolygon multiPolygonToGeo
  rw [List.map_map]
  refine Eq.trans (List.map_congr_left ?_) (List.map_id M)
  intro poly hpoly
  obtain ⟨hlen, hslots⟩ := h poly hpoly
  match poly, hlen with
  | [], _ => simp
  | [a], _ =>
    obtain ⟨r, rfl, hr⟩ := hslots a (by simp)
    simp [geoPointSeq_round hr]
  | [a, b], _ =>
    obtain ⟨r, rfl, hr⟩ := hslots a (by simp)
    obtain ⟨r2, rfl, hr2⟩ := hslots b (by simp)
    simp [geoPointSeq_round hr, geoPointSeq_round hr2]

/-- C8: for any point sequence whose points are `[longitude, latitude]` pairs
(the §3 data model for `Point`), converting to geo points with
`multiPointToGeo` and back with `multiGeoToPoint` is the identity — exact
value equality, length and order preserved. -/
theorem C8_point_roundtrip (P : List Point) (h : ∀ p ∈ P, p.length = 2) :
    multiGeoToPoint (multiPointToGeo P) = P := multiPointToGeo_round h

theorem C8_point_roundtrip_witness :
    (∀ p ∈ ([[some (1:ℚ), some 2], [none, some 3]] : List Point), p.length = 2) ∧
    multiGeoToPoint (multiPointToGeo [[some (1:ℚ), some 2], [none, some 3]]) =
      [[some 1, some 2], [none, some 3]] :=
  ⟨by simp, C8_point_roundtrip _ (by simp)⟩

/-- C9: `multiGeoLineToMultiLine`, though written with its own explicit
loops, equals the generic element-wise point conversion (`multiGeoToPoint`
mapped over the segments), and it is a left inverse of `multiLineToGeo` on
multilines of two-element points. -/
theorem C9_multiGeoLine_equiv :
    (∀ G : List (List IGeoPoint), multiGeoLineToMultiLine G = G.map multiGeoToPoint) ∧
    (∀ L : List (List Point), (∀ line ∈ L, ∀ p ∈ line, p.length = 2) →
      multiGeoLineToMultiLine (multiLineToGeo L) = L) := by
  constructor
  · intro G
    rfl
  · intro L h
    unfold multiGeoLineToMultiLine multiLineToGeo
    rw [List.map_map]
    refine Eq.trans (List.map_congr_left ?_) (List.map_id L)
    intro line hline
    exact multiPointToGeo_round (h line hline)

theorem C9_multiGeoLine_equiv_witness :
    multiGeoLineToMultiLine [[IGeoPoint.mk (some 1) (some 2)]] =
      [[IGeoPoint.mk (some (1:ℚ)) (some 2)]].map multiGeoToPoint ∧
    (∀ line ∈ ([[[some (3:ℚ), some 4]]] : List (List Point)), ∀ p ∈ line, p.length = 2) ∧
    multiGeoLineToMultiLine (multiLineToGeo [[[some (3:ℚ), some 4]]]) = [[[some 3, some 4]]] :=
  ⟨C9_multiGeoLine_equiv.1 _, by simp, C9_multiGeoLine_equiv.2 _ (by simp)⟩

/-- C6: counterexample to the round-trip claim as stated.  The polygon
`[undefined, hole]` — a hole at slot 1 with no surface at slot 0 — contains
only one ring, `[[1, 2]]`, and that ring is non-degenerate (its point is a
`[longitude, latitude]` pair), yet the round trip returns `[hole]` with the
hole shifted to slot 0, not the original polygon. -/
theorem C6_roundtrip_counterexample :
    multiGeoPolygonToMultipolygon (multiPolygonToGeo [[none, some [[some 1, some 2]]]]) =
      [[some [[some 1, some 2]]]] ∧
    ([[some [[some (1:ℚ), some 2]]]] : List Polygon) ≠ [[none, some [[some 1, some 2]]]] := by
  constructor
  · simp [multiPolygonToGeo, multiGeoPolygonToMultipolygon, multiPointToGeo, multiGeoToPoint,
      pointToGeo]
  · simp

/-- C6 (amended): the round trip `multiGeoPolygonToMultipolygon ∘
multiPolygonToGeo` is the identity on every MultiPolygon whose polygons
have at most two ring slots, none of them absent, with every point a
`[longitude, latitude]` pair. -/
theorem C6_roundtrip_amended (M : List Polygon)
    (h : ∀ poly ∈ M, poly.length ≤ 2 ∧
      ∀ slot ∈ poly, ∃ r, slot = some r ∧ ∀ p ∈ r, p.length = 2) :
    multiGeoPolygonToMultipolygon (multiPolygonToGeo M) = M := multiPolygon_round M h

theorem C6_roundtrip_amended_witness :
    (∀ poly ∈ ([[some [[some (1:ℚ), some 2]], some [[some 3, some 4]]]] : List Polygon),
      poly.length ≤ 2 ∧ ∀ slot ∈ poly, ∃ r, slot = some r ∧ ∀ p ∈ r, p.length = 2) ∧
    multiGeoPolygonToMultipolygon
        (multiPolygonToGeo [[some [[some (1:ℚ), some 2]], some [[some 3, some 4]]]]) =
      [[some [[some 1, some 2]], some [[some 3, some 4]]]] :=
  ⟨by simp, C6_roundtrip_amended _ (by simp)⟩

/-- C7: counterexample.  For a polygon with a hole at slot 1 and no surface
at slot 0, `multiPolygonToGeo` does not leave an empty array at index 0
with the hole at slot 1: pushes append, so the converted hole lands at
index 0 and the output polygon has length 1. -/
theorem C7_hole_slot_counterexample :
    multiPolygonToGeo [[none, some [[some 1, some 2]]]] =
      [[some [IGeoPoint.mk (some 1) (some 2)]]] ∧
    multiPolygonToGeo [[none, some [[some 1, some 2]]]] ≠
      [[some [], some [IGeoPoint.mk (some 1) (some 2)]]] := by
  constructor
  · simp [multiPolygonToGeo, multiPointToGeo, pointToGeo]
  · simp [multiPolygonToGeo, multiPointToGeo, pointToGeo]

/-- C7 (amended): when the surface slot is absent and a hole is present,
both converters append the converted hole at index 0, producing a length-1
polygon; an empty array at index 0 arises only when the surface is present
as an empty (truthy) array, in which case the hole stays at slot 1. -/
theorem C7_hole_slot_amended (r : Ring) (g : List IGeoPoint) :
    multiPolygonToGeo [[none, some r]] = [[some (multiPointToGeo r)]] ∧
    multiGeoPolygonToMultipolygon [[none, some g]] = [[some (multiGeoToPoint g)]] ∧
    multiPolygonToGeo [[some [], some r]] = [[some [], some (multiPointToGeo r)]] ∧
    multiGeoPolygonToMultipolygon [[some [], some g]] = [[some [], some (multiGeoToPoint g)]] := by
  refine ⟨?_, ?_, ?_, ?_⟩ <;>
    simp [multiPolygonToGeo, multiGeoPolygonToMultipolygon, multiPointToGeo, multiGeoToPoint]

theorem bgSlices_stop {north south stepLat east ln s : ℚ} (h : ¬ ln < east) (fuel : ℕ) :
    bgSlices north south stepLat east fuel ln s = [] := by
  cases fuel <;> simp [bgSlices, h]

/-- C10: for every `north` and `south` and every zero-longitude-span box
`east = west = v` with `v ≠ -180` and `v ≠ 180`, `getBackground` is total
and returns the empty MultiPolygon: the step divisions divide by
`⌈0/90⌉ = 0`, but the outer loop condition `ln < east` is false at the
first check, so no slice is ever emitted. -/
theorem C10_zero_span_empty (north south v : ℚ) (h1 : v ≠ -180) (h2 : v ≠ 180) :
    getBackground north v south v = [] := by
  unfold getBackground
  rw [show nudgeWest v = v from if_neg h1, show nudgeEast v = v from if_neg h2]
  exact bgSlices_stop (lt_irrefl v) _

theorem C10_zero_span_empty_witness :
    ((10:ℚ) ≠ -180) ∧ ((10:ℚ) ≠ 180) ∧ getBackground 5 10 (-5) 10 = [] :=
  ⟨by norm_num, by norm_num, C10_zero_span_empty 5 (-5) 10 (by norm_num) (by norm_num)⟩

/-- C5: every polygon emitted by `getBackground` consists of exactly one
ring (a surface only, no hole), and on a box whose nudged west is strictly
below its nudged east the polygons appear in slice order west→east: the
`i`-th polygon's ring starts at longitude `west + i * stepLong` with
`stepLong > 0`. -/
theorem C5_one_ring_ordered :
    (∀ north east south west : ℚ,
      ∀ poly ∈ getBackground north east south west, poly.length = 1) ∧
    (∀ north east south west : ℚ, nudgeWest west < nudgeEast east →
      0 < bgStepLong (nudgeEast east) (nudgeWest west) ∧
      ∀ (i : ℕ) (pi : List (List (List ℚ))),
        (getBackground north east south west)[i]? = some pi →
        pi.headI.head? =
          some [nudgeWest west + (i : ℚ) * bgStepLong (nudgeEast east) (nudgeWest west),
            nudgeNorth north]) := by
  constructor
  · intro north east south west poly hpoly
    unfold getBackground at hpoly
    obtain ⟨r, rfl⟩ := bgSlices_poly_shape _ _ _ _ _ _ _ poly hpoly
    rfl
  · intro north east south west h
    refine ⟨bgStepLong_pos h, ?_⟩
    intro i pi hpi
    rw [getBackground_closed h, List.getElem?_map] at hpi
    rcases Nat.lt_or_ge i (⌈(nudgeEast east - nudgeWest west) / 90⌉.toNat) with hi | hi
    · rw [List.getElem?_range hi] at hpi
      simp only [Option.map_some'] at hpi
      obtain rfl := Option.some.inj hpi
      simp only [List.headI]
      exact sliceRing_head (le_of_lt (bgStepLong_pos h))
    · rw [List.getElem?_eq_none (by simpa using hi)] at hpi
      simp at hpi

theorem C5_one_ring_ordered_witness :
    nudgeWest (-170) < nudgeEast 170 ∧ 0 < bgStepLong (nudgeEast 170) (nudgeWest (-170)) :=
  ⟨by norm_num [nudgeWest, nudgeEast],
    (C5_one_ring_ordered.2 80 170 (-80) (-170) (by norm_num [nudgeWest, nudgeEast])).1⟩

/-- C1: `getBackground(80, 170, -80, -170)` returns exactly
`⌈(170 - (-170))/90⌉ = 4` polygons, and in general (whenever the nudged
west is strictly below the nudged east) the box is decomposed into
`⌈span/90⌉` slices of equal width `stepLong = min(90, span/⌈span/90⌉)`,
the `k`-th slice starting at `west + k * stepLong`. -/
theorem C1_slice_decomposition :
    (getBackground 80 170 (-80) (-170)).length = 4 ∧
    (∀ north east south west : ℚ, nudgeWest west < nudgeEast east →
      getBackground north east south west =
        (List.range (⌈(nudgeEast east - nudgeWest west) / 90⌉.toNat)).map fun k : ℕ =>
          [sliceRing (nudgeNorth north) (nudgeSouth south)
            (bgStepLat (nudgeNorth north) (nudgeSouth south))
            (nudgeWest west + (k : ℚ) * bgStepLong (nudgeEast east) (nudgeWest west))
            (bgStepLong (nudgeEast east) (nudgeWest west))]) := by
  constructor
  · have hc : nudgeWest (-170:ℚ) < nudgeEast 170 := by norm_num [nudgeWest, nudgeEast]
    rw [getBackground_closed hc, List.length_map, List.length_range]
    rw [show nudgeEast (170:ℚ) = 170 from by norm_num [nudgeEast],
      show nudgeWest (-170:ℚ) = -170 from by norm_num [nudgeWest]]
    rw [show ((170:ℚ) - -170) / 90 = 34/9 from by norm_num,
      show ⌈(34:ℚ)/9⌉ = 4 from by rw [Int.ceil_eq_iff]; norm_num]
    rfl
  · intro north east south west h
    exact getBackground_closed h

theorem C1_slice_decomposition_witness :
    nudgeWest (-170) < nudgeEast 170 ∧
    getBackground 80 170 (-80) (-170) =
      (List.range (⌈(nudgeEast 170 - nudgeWest (-170)) / 90⌉.toNat)).map fun k : ℕ =>
        [sliceRing (nudgeNorth 80) (nudgeSouth (-80))
          (bgStepLat (nudgeNorth 80) (nudgeSouth (-80)))
          (nudgeWest (-170) + (k : ℚ) * bgStepLong (nudgeEast 170) (nudgeWest (-170)))
          (bgStepLong (nudgeEast 170) (nudgeWest (-170)))] :=
  ⟨by norm_num [nudgeWest, nudgeEast],
    C1_slice_decomposition.2 80 170 (-80) (-170) (by norm_num [nudgeWest, nudgeEast])⟩

/-- C2: the four boundary nudges replace the exact extremes `-180`, `-90`,
`90`, `180` by `-179.9999`, `-89.9999`, `89.9999`, `179.9999`, and
consequently `getBackground(90, 180, -90, -180)` contains no point whose
latitude is `90` or `-90` and no point whose longitude is `180` or `-180`. -/
theorem C2_boundary_nudge :
    nudgeWest (-180) = -179.9999 ∧ nudgeSouth (-90) = -89.9999 ∧
    nudgeNorth 90 = 89.9999 ∧ nudgeEast 180 = 179.9999 ∧
    ∀ poly ∈ getBackground 90 180 (-90) (-180), ∀ ring ∈ poly, ∀ p ∈ ring,
      p[0]? ≠ some (180:ℚ) ∧ p[0]? ≠ some (-180:ℚ) ∧
      p[1]? ≠ some (90:ℚ) ∧ p[1]? ≠ some (-90:ℚ) := by
  have hW : nudgeWest (-180:ℚ) = -179.9999 := by norm_num [nudgeWest]
  have hE : nudgeEast (180:ℚ) = 179.9999 := by norm_num [nudgeEast]
  have hN : nudgeNorth (90:ℚ) = 89.9999 := by norm_num [nudgeNorth]
  have hS : nudgeSouth (-90:ℚ) = -89.9999 := by norm_num [nudgeSouth]
  have hc : nudgeWest (-180:ℚ) < nudgeEast 180 := by rw [hW, hE]; norm_num
  have hs := bgStepLong_pos hc
  refine ⟨hW, hS, hN, hE, ?_⟩
  intro poly hpoly ring hring p hp
  rw [getBackground_closed hc] at hpoly
  obtain ⟨k, hk, rfl⟩ := List.mem_map.mp hpoly
  rw [List.mem_range] at hk
  rw [List.mem_singleton] at hring
  subst hring
  have hsn : nudgeSouth (-90:ℚ) ≤ nudgeNorth 90 := by rw [hS, hN]; norm_num
  obtain ⟨lo, la, rfl, h1, h2, h3, h4⟩ := sliceRing_mem hsn (le_of_lt hs) p hp
  have hk1 : ((k:ℚ) + 1) ≤ ((⌈(nudgeEast 180 - nudgeWest (-180)) / 90⌉.toNat : ℕ) : ℚ) := by
    have hk' : (k + 1 : ℕ) ≤ ⌈(nudgeEast 180 - nudgeWest (-180)) / 90⌉.toNat := hk
    exact_mod_cast hk'
  have hexact := bgStepLong_exact hc
  have hlow : nudgeWest (-180:ℚ) ≤
      nudgeWest (-180) + (k:ℚ) * bgStepLong (nudgeEast 180) (nudgeWest (-180)) := by
    have h0 : (0:ℚ) ≤ (k:ℚ) * bgStepLong (nudgeEast 180) (nudgeWest (-180)) :=
      mul_nonneg (Nat.cast_nonneg k) (le_of_lt hs)
    linarith
  have hhigh : (nudgeWest (-180) + (k:ℚ) * bgStepLong (nudgeEast 180) (nudgeWest (-180))) +
      bgStepLong (nudgeEast 180) (nudgeWest (-180)) ≤ nudgeEast 180 := by
    have hmul := mul_le_mul_of_nonneg_right hk1 (le_of_lt hs)
    nlinarith [hmul, hexact]
  have hlo1 : (-179.9999:ℚ) ≤ lo := by rw [← hW]; linarith
  have hlo2 : lo ≤ (179.9999:ℚ) := by rw [← hE]; linarith
  rw [hS] at h3
  rw [hN] at h4
  have e0 : ([lo, la] : List ℚ)[0]? = some lo := rfl
  have e1 : ([lo, la] : List ℚ)[1]? = some la := rfl
  refine ⟨?_, ?_, ?_, ?_⟩
  · rw [e0]; intro hq; rw [Option.some.injEq] at hq; rw [hq] at hlo2; norm_num at hlo2
  · rw [e0]; intro hq; rw [Option.some.injEq] at hq; rw [hq] at hlo1; norm_num at hlo1
  · rw [e1]; intro hq; rw [Option.some.injEq] at hq; rw [hq] at h4; norm_num at h4
  · rw [e1]; intro hq; rw [Option.some.injEq] at hq; rw [hq] at h3; norm_num at h3

theorem C2_boundary_nudge_witness :
    (getBackground 90 180 (-90) (-180)) ≠ [] ∧
    ([(-179.9999 : ℚ), 89.9999] : List ℚ)[0]? ≠ some (180:ℚ) ∧
    ([(-179.9999 : ℚ), 89.9999] : List ℚ)[1]? ≠ some (90:ℚ) := by
  have hc : nudgeWest (-180:ℚ) < nudgeEast 180 := by norm_num [nudgeWest, nudgeEast]
  have hN1 : 0 < ⌈(nudgeEast 180 - nudgeWest (-180)) / 90⌉.toNat := by
    have := ceil_span_pos hc
    omega
  have hpoly : [sliceRing (nudgeNorth 90) (nudgeSouth (-90))
      (bgStepLat (nudgeNorth 90) (nudgeSouth (-90))) (nudgeWest (-180))
      (bgStepLong (nudgeEast 180) (nudgeWest (-180)))] ∈ getBackground 90 180 (-90) (-180) := by
    rw [getBackground_closed hc]
    refine List.mem_map.mpr ⟨0, List.mem_range.mpr hN1, ?_⟩
    norm_num
  have hring : sliceRing (nudgeNorth 90) (nudgeSouth (-90))
      (bgStepLat (nudgeNorth 90) (nudgeSouth (-90))) (nudgeWest (-180))
      (bgStepLong (nudgeEast 180) (nudgeWest (-180))) ∈
      [sliceRing (nudgeNorth 90) (nudgeSouth (-90))
        (bgStepLat (nudgeNorth 90) (nudgeSouth (-90))) (nudgeWest (-180))
        (bgStepLong (nudgeEast 180) (nudgeWest (-180)))] := List.mem_singleton_self _
  have hpt : ([(-179.9999 : ℚ), 89.9999] : List ℚ) ∈ sliceRing (nudgeNorth 90) (nudgeSouth (-90))
      (bgStepLat (nudgeNorth 90) (nudgeSouth (-90))) (nudgeWest (-180))
      (bgStepLong (nudgeEast 180) (nudgeWest (-180))) := by
    refine List.mem_of_mem_head? ?_
    rw [sliceRing_head (le_of_lt (bgStepLong_pos hc))]
    norm_num [nudgeWest, nudgeNorth]
  have h5 := C2_boundary_nudge.2.2.2.2 _ hpoly _ hring _ hpt
  exact ⟨by intro hnil; rw [hnil] at hpoly; exact (List.not_mem_nil _ hpoly),
    h5.1, h5.2.2.1⟩

theorem forUp_small1 : forUp (-10) 10 5 = [-10, -5, 0, 5, 10] := by
  unfold forUp forUpCount
  rw [if_pos (by norm_num : (0:ℚ) < 5)]
  rw [show ((10:ℚ) - -10)/5 = 4 from by norm_num]
  rw [show ⌊(4:ℚ)⌋ = 4 from by rw [Int.floor_eq_iff]; norm_num]
  rw [show ((4:ℤ)+1).toNat = 5 from rfl]
  rw [show List.range 5 = [0,1,2,3,4] from rfl]
  norm_num

theorem forDown_small1 : forDown 10 (-10) 20 = [10, -10] := by
  unfold forDown forDownCount
  rw [if_pos (by norm_num : (0:ℚ) < 20)]
  rw [show ((10:ℚ) - -10)/20 = 1 from by norm_num]
  rw [show ⌊(1:ℚ)⌋ = 1 from by rw [Int.floor_eq_iff]; norm_num]
  rw [show ((1:ℤ)+1).toNat = 2 from rfl]
  rw [show List.range 2 = [0,1] from rfl]
  norm_num

theorem forDown_small2 : forDown 10 (-10) 5 = [10, 5, 0, -5, -10] := by
  unfold forDown forDownCount
  rw [if_pos (by norm_num : (0:ℚ) < 5)]
  rw [show ((10:ℚ) - -10)/5 = 4 from by norm_num]
  rw [show ⌊(4:ℚ)⌋ = 4 from by rw [Int.floor_eq_iff]; norm_num]
  rw [show ((4:ℤ)+1).toNat = 5 from rfl]
  rw [show List.range 5 = [0,1,2,3,4] from rfl]
  norm_num

theorem forUp_small2 : forUp (-10) 10 20 = [-10, 10] := by
  unfold forUp forUpCount
  rw [if_pos (by norm_num : (0:ℚ) < 20)]
  rw [show ((10:ℚ) - -10)/20 = 1 from by norm_num]
  rw [show ⌊(1:ℚ)⌋ = 1 from by rw [Int.floor_eq_iff]; norm_num]
  rw [show ((1:ℤ)+1).toNat = 2 from rfl]
  rw [show List.range 2 = [0,1] from rfl]
  norm_num

theorem sliceRing_small :
    sliceRing 10 (-10) 20 (-10) 20 =
      [[-10, 10], [-5, 10], [0, 10], [5, 10], [10, 10], [10, 10], [10, -10],
       [10, -10], [5, -10], [0, -10], [-5, -10], [-10, -10], [-10, -10], [-10, 10]] := by
  unfold sliceRing
  rw [show ((-10:ℚ) + 20) = 10 from by norm_num]
  rw [forUp_small1, forDown_small1, forDown_small2, forUp_small2]
  norm_num

theorem bgStepLong_small : bgStepLong (nudgeEast 10) (nudgeWest (-10)) = 20 := by
  rw [show nudgeEast (10:ℚ) = 10 from by norm_num [nudgeEast],
    show nudgeWest (-10:ℚ) = -10 from by norm_num [nudgeWest]]
  unfold bgStepLong
  rw [show ((10:ℚ) - -10) = 20 from by norm_num]
  rw [show ⌈(20:ℚ)/90⌉ = 1 from by rw [Int.ceil_eq_iff]; norm_num]
  norm_num

theorem bgStepLat_small : bgStepLat (nudgeNorth 10) (nudgeSouth (-10)) = 20 := by
  rw [show nudgeNorth (10:ℚ) = 10 from by norm_num [nudgeNorth],
    show nudgeSouth (-10:ℚ) = -10 from by norm_num [nudgeSouth]]
  unfold bgStepLat
  rw [show ((10:ℚ) - -10) = 20 from by norm_num]
  rw [show ⌈(20:ℚ)/90⌉ = 1 from by rw [Int.ceil_eq_iff]; norm_num]
  norm_num

theorem getBackground_small :
    getBackground 10 10 (-10) (-10) =
      [[[[-10, 10], [-5, 10], [0, 10], [5, 10], [10, 10], [10, 10], [10, -10],
         [10, -10], [5, -10], [0, -10], [-5, -10], [-10, -10], [-10, -10], [-10, 10]]]] := by
  have hc : nudgeWest (-10:ℚ) < nudgeEast 10 := by norm_num [nudgeWest, nudgeEast]
  rw [getBackground_closed hc]
  rw [show nudgeEast (10:ℚ) = 10 from by norm_num [nudgeEast],
    show nudgeWest (-10:ℚ) = -10 from by norm_num [nudgeWest],
    show nudgeNorth (10:ℚ) = 10 from by norm_num [nudgeNorth],
    show nudgeSouth (-10:ℚ) = -10 from by norm_num [nudgeSouth]]
  rw [show ((10:ℚ) - -10) / 90 = 2/9 from by norm_num]
  rw [show ⌈(2:ℚ)/9⌉ = 1 from by rw [Int.ceil_eq_iff]; norm_num]
  rw [show ((1:ℤ)).toNat = 1 from rfl]
  rw [show List.range 1 = [0] from rfl]
  rw [List.map_singleton]
  rw [show ((-10:ℚ) + (0:ℕ) * bgStepLong 10 (-10)) = -10 from by norm_num]
  have hsl : bgStepLong (10:ℚ) (-10) = 20 := by
    unfold bgStepLong
    rw [show ((10:ℚ) - -10) = 20 from by norm_num]
    rw [show ⌈(20:ℚ)/90⌉ = 1 from by rw [Int.ceil_eq_iff]; norm_num]
    norm_num
  have hslat : bgStepLat (10:ℚ) (-10) = 20 := by
    unfold bgStepLat
    rw [show ((10:ℚ) - -10) = 20 from by norm_num]
    rw [show ⌈(20:ℚ)/90⌉ = 1 from by rw [Int.ceil_eq_iff]; norm_num]
    norm_num
  rw [hsl, hslat, sliceRing_small]

theorem forUpCount_small : forUpCount (-10) 10 5 = 5 := by
  unfold forUpCount
  rw [if_pos (by norm_num : (0:ℚ) < 5)]
  rw [show ((10:ℚ) - -10)/5 = 4 from by norm_num]
  rw [show ⌊(4:ℚ)⌋ = 4 from by rw [Int.floor_eq_iff]; norm_num]
  rfl

/-- C3: counterexample.  `getBackground(10, 10, -10, -10)` does yield one
slice, but the slice ring's top edge — the points emitted at
`latitude = north` by the first (5°-step) loop, i.e. the first
`forUpCount (-10) 10 5` points of the ring — is the five points
`[-10,10], [-5,10], [0,10], [5,10], [10,10]`, not only the two points
`[-10,10]` and `[10,10]`: the point `[-5,10]` is on the top edge and is
neither. -/
theorem C3_top_edge_counterexample :
    getBackground 10 10 (-10) (-10) =
      [[[[-10, 10], [-5, 10], [0, 10], [5, 10], [10, 10], [10, 10], [10, -10],
         [10, -10], [5, -10], [0, -10], [-5, -10], [-10, -10], [-10, -10], [-10, 10]]]] ∧
    (getBackground 10 10 (-10) (-10)).headI.headI.take (forUpCount (-10) 10 5) =
      [[-10, 10], [-5, 10], [0, 10], [5, 10], [10, 10]] ∧
    ¬ (∀ p ∈ (getBackground 10 10 (-10) (-10)).headI.headI.take (forUpCount (-10) 10 5),
        p = [(-10:ℚ), 10] ∨ p = [(10:ℚ), 10]) := by
  have htake : (getBackground 10 10 (-10) (-10)).headI.headI.take (forUpCount (-10) 10 5) =
      [[-10, 10], [-5, 10], [0, 10], [5, 10], [10, 10]] := by
    rw [getBackground_small, forUpCount_small]
    rfl
  refine ⟨getBackground_small, htake, ?_⟩
  intro hall
  have hm : [(-5:ℚ), 10] ∈ (getBackground 10 10 (-10) (-10)).headI.headI.take (forUpCount (-10) 10 5) := by
    rw [htake]
    simp
  rcases hall _ hm with h | h
  · injection h with h1 h2
    norm_num at h1
  · injection h with h1 h2
    norm_num at h1

/-- C3 (amended): `getBackground(10, 10, -10, -10)` yields exactly one
slice with `stepLong = 20`, and that slice ring's top edge is the five
points `[-10,10], [-5,10], [0,10], [5,10], [10,10]` traced in 5° steps —
the step from `-10` lands exactly on `10`, so the edge starts at `[-10,10]`
and ends at `[10,10]`. -/
theorem C3_small_box_amended :
    (getBackground 10 10 (-10) (-10)).length = 1 ∧
    bgStepLong (nudgeEast 10) (nudgeWest (-10)) = 20 ∧
    (getBackground 10 10 (-10) (-10)).headI.headI.take (forUpCount (-10) 10 5) =
      [[-10, 10], [-5, 10], [0, 10], [5, 10], [10, 10]] := by
  refine ⟨by rw [getBackground_small]; rfl, bgStepLong_small, ?_⟩
  rw [getBackground_small, forUpCount_small]
  rfl

/-- C4: counterexample.  For the box `(10, 10, -10, -10)` the left edge is
`[[-10,-10], [-10,10]]`, so the immediate predecessor of the start point
`(-10, 10)` on the left edge is `[-10,-10]`; but the emitted ring's last
point is `[-10, 10]` — the start point itself, not its predecessor. -/
theorem C4_ring_closure_counterexample :
    ((forUp (-10) 10 (bgStepLat (nudgeNorth 10) (nudgeSouth (-10)))).map
        fun lt => [(-10:ℚ), lt]) = [[-10, -10], [-10, 10]] ∧
    (getBackground 10 10 (-10) (-10)).headI.headI.getLast? = some [(-10:ℚ), 10] ∧
    (getBackground 10 10 (-10) (-10)).headI.headI.head? = some [(-10:ℚ), 10] ∧
    some [(-10:ℚ), 10] ≠ some [(-10:ℚ), (-10:ℚ)] := by
  refine ⟨?_, ?_, ?_, ?_⟩
  · rw [bgStepLat_small, forUp_small2]
    norm_num
  · rw [getBackground_small]
    rfl
  · rw [getBackground_small]
    rfl
  · intro h
    rw [Option.some.injEq] at h
    injection h with h1 h2
    injection h2 with h3 h4
    norm_num at h3

/-- C4 (amended): for every well-formed bounding box (nudged north above
nudged south, nudged east above nudged west), each slice ring emitted by
`getBackground` starts at `(slice_west, north)`, and — because the latitude
step divides `north - south` exactly — the left edge's final point is
`(slice_west, north)` itself: the ring's last point repeats its start
point, closing the boundary explicitly. -/
theorem C4_ring_closed (north east south west : ℚ)
    (hlat : nudgeSouth south < nudgeNorth north) (hlon : nudgeWest west < nudgeEast east) :
    ∀ poly ∈ getBackground north east south west, ∀ ring ∈ poly,
      (∃ k : ℕ, ring.head? =
        some [nudgeWest west + (k:ℚ) * bgStepLong (nudgeEast east) (nudgeWest west),
          nudgeNorth north]) ∧
      ring.getLast? = ring.head? := by
  intro poly hpoly ring hring
  rw [getBackground_closed hlon] at hpoly
  obtain ⟨k, hk, rfl⟩ := List.mem_map.mp hpoly
  rw [List.mem_singleton] at hring
  subst hring
  have hw := le_of_lt (bgStepLong_pos hlon)
  refine ⟨⟨k, sliceRing_head hw⟩, ?_⟩
  rw [sliceRing_head hw, sliceRing_getLast hlat]

theorem C4_ring_closed_witness :
    nudgeSouth (-80) < nudgeNorth 80 ∧ nudgeWest (-170) < nudgeEast 170 ∧
    (sliceRing (nudgeNorth 80) (nudgeSouth (-80))
        (bgStepLat (nudgeNorth 80) (nudgeSouth (-80))) (nudgeWest (-170))
        (bgStepLong (nudgeEast 170) (nudgeWest (-170)))).getLast? =
      (sliceRing (nudgeNorth 80) (nudgeSouth (-80))
        (bgStepLat (nudgeNorth 80) (nudgeSouth (-80))) (nudgeWest (-170))
        (bgStepLong (nudgeEast 170) (nudgeWest (-170)))).head? := by
  have hlat : nudgeSouth (-80:ℚ) < nudgeNorth 80 := by norm_num [nudgeSouth, nudgeNorth]
  have hc : nudgeWest (-170:ℚ) < nudgeEast 170 := by norm_num [nudgeWest, nudgeEast]
  have hN1 : 0 < ⌈(nudgeEast 170 - nudgeWest (-170)) / 90⌉.toNat := by
    have := ceil_span_pos hc
    omega
  have hpoly : [sliceRing (nudgeNorth 80) (nudgeSouth (-80))
      (bgStepLat (nudgeNorth 80) (nudgeSouth (-80))) (nudgeWest (-170))
      (bgStepLong (nudgeEast 170) (nudgeWest (-170)))] ∈ getBackground 80 170 (-80) (-170) := by
    rw [getBackground_closed hc]
    refine List.mem_map.mpr ⟨0, List.mem_range.mpr hN1, ?_⟩
    norm_num
  exact ⟨hlat, hc,
    (C4_ring_closed 80 170 (-80) (-170) hlat hc _ hpoly _ (List.mem_singleton_self _)).2⟩

end MapUtils
